import Mathlib

/-!
# Verification of the shell's pipeline/job-control subsystem

Shallow embedding of the process/pipeline execution and job-control code of
the `sdfpt05/shell` repository, together with theorems checking the
specification's claims about it.

The repository contains several shell variants.  The pipeline shell
(`executeCommand` / `runCommands` / `handleSignals` with an interrupt
counter) is embedded from `src/unnamed/part_005`; the job-control shell
(`runExternal` / `waitForJob` / `foregroundJob` / `backgroundJob`) is
embedded from the first program in `src/unnamed/part_006`.
-/

namespace ShellModel

/-- A standard stream endpoint a child command can be wired to.  `pipeRead j`
and `pipeWrite j` are the two ends of the `j`-th inter-stage pipe allocated by
the builder (in Go, the pipe created by the `j`-th call to `cmd.StdoutPipe()`).
`detached` models a `nil` stream field on an `exec.Cmd` (the child gets the
null device). -/
inductive Stdio where
  | shellStdin
  | shellStdout
  | shellStderr
  | pipeRead (j : Nat)
  | pipeWrite (j : Nat)
  | detached
  deriving DecidableEq, Repr

/-- One wired pipeline stage: the argument vector of the `exec.Cmd` plus its
three standard-stream assignments. -/
structure Cmd where
  argv : List String
  stdin : Stdio
  stdout : Stdio
  stderr : Stdio
  deriving DecidableEq, Repr

/-- Result of `executeCommand` in `src/unnamed/part_005`: either a builtin
intercepted the stage loop, or a wired pipeline was produced.  `npipes` counts
the `StdoutPipe` allocations performed. -/
inductive ExecOutcome where
  | builtinExit
  | builtinHistory
  | builtinCd (args : List String)
  | pipeline (cmds : List Cmd) (npipes : Nat)
  deriving DecidableEq, Repr

/-- The builtin names intercepted inside the stage loop of
`executeCommand` (`src/unnamed/part_005` lines 94-103). -/
def isLoopBuiltin (w : String) : Bool :=
  w = "exit" || w = "history" || w = "cd"

/-- Embeds the stage loop of `(*Shell).executeCommand`
(`src/unnamed/part_005` lines 87-120).  `total` is `len(commands)` (the raw
split count, empty stages included), `i` the current index, `inp` the current
`inputPipe` value, `p` the number of pipes allocated so far, and `acc` the
commands built so far (in reverse).  An empty stage (no tokens after
`strings.Fields`) is skipped with `continue`; a non-final stage
(`i < len(commands)-1`) gets a fresh `StdoutPipe` as stdout, the final stage
gets the shell's stdout; every stage's stderr is the shell's stderr and its
stdin is the current `inputPipe`. -/
def execLoop (total : Nat) :
    List (List String) → Nat → Stdio → Nat → List Cmd → ExecOutcome
  | [], _, _, p, acc => .pipeline acc.reverse p
  | parts :: rest, i, inp, p, acc =>
    match parts with
    | [] => execLoop total rest (i + 1) inp p acc
    | w :: args =>
      if w = "exit" then .builtinExit
      else if w = "history" then .builtinHistory
      else if w = "cd" then .builtinCd (w :: args)
      else if i < total - 1 then
        execLoop total rest (i + 1) (.pipeRead p) (p + 1)
          (⟨w :: args, inp, .pipeWrite p, .shellStderr⟩ :: acc)
      else
        execLoop total rest (i + 1) inp p
          (⟨w :: args, inp, .shellStdout, .shellStderr⟩ :: acc)

/-- Embeds `(*Shell).executeCommand` (`src/unnamed/part_005` lines 82-123) at
the level of already-tokenised stages: the input line has been split at `|`
into `stages` and each stage tokenised by `strings.Fields` (an empty or
blank segment becomes `[]`).  The loop starts with `inputPipe = os.Stdin`
and no pipes allocated. -/
def executeCommand (stages : List (List String)) : ExecOutcome :=
  execLoop stages.length stages 0 .shellStdin 0 []

/-- A stage is clean when it is non-empty and does not start with a builtin
name intercepted by the loop. -/
def cleanStage : List String → Bool
  | [] => false
  | w :: _ => !isLoopBuiltin w

/-- A stage list is clean when every stage is clean. -/
def CleanStages (stages : List (List String)) : Prop :=
  ∀ s ∈ stages, cleanStage s = true

instance : DecidablePred CleanStages := by
  unfold CleanStages; infer_instance

/-- Structural form of the wiring the stage loop produces on clean stages:
each non-final stage writes into a fresh pipe whose read end becomes the next
stage's stdin; the final stage writes to the shell's stdout. -/
def chainCmds : List (List String) → Stdio → Nat → List Cmd
  | [], _, _ => []
  | [s], inp, _ => [⟨s, inp, .shellStdout, .shellStderr⟩]
  | s :: s' :: rest, inp, p =>
    ⟨s, inp, .pipeWrite p, .shellStderr⟩ :: chainCmds (s' :: rest) (.pipeRead p) (p + 1)

/-- The non-empty stages of a raw stage list. -/
def nonEmptyStages (stages : List (List String)) : List (List String) :=
  stages.filter (fun s => !s.isEmpty)

/-! ## Process launcher: `(*Shell).runCommands`, `src/unnamed/part_005` lines 125-148 -/

/-- An observable call `runCommands` makes on the operating system for
stage `j`: starting its process, or waiting on its completion. -/
inductive PEvent where
  | start (j : Nat)
  | wait (j : Nat)
  deriving DecidableEq, Repr

/-- Embeds the start loop of `runCommands` (lines 126-130): the commands are
started in order and the first start failure makes the function return the
wrapped error immediately.  The Go code performs no kill, wait or other
cleanup of the already-started commands on that path.  Returns the commands
whose start succeeded together with the failing command, if any. -/
def startCmds : List Cmd → (Cmd → Bool) → List Cmd × Option Cmd
  | [], _ => ([], none)
  | c :: rest, fails =>
    if fails c then ([], some c)
    else
      let r := startCmds rest fails
      (c :: r.1, r.2)

/-- A thread of `runCommands` for an `n`-stage pipeline: the main thread
(which runs the start loop of lines 126-130 and then the goroutine-spawning
loop of lines 133-137), or the waiter goroutine of stage `i` (whose body
calls `cmd.Wait()` on its own command once). -/
inductive LThread where
  | main
  | waiter (i : Nat)
  deriving DecidableEq, Repr

/-- Execution state of `runCommands` with all starts succeeding:
`started` counts the `cmd.Start()` calls done by the main thread's first
loop, `spawned` the waiter goroutines its second loop has spawned,
`waiterDone` the waiters whose single `cmd.Wait()` call has run, and
`trace` the operating-system calls issued so far, in order. -/
structure LState where
  started : Nat
  spawned : Nat
  waiterDone : List Nat
  trace : List PEvent
  deriving DecidableEq, Repr

/-- One atomic step of a thread of `runCommands`.  The main thread starts
the next command while the start loop is unfinished, then spawns the waiter
goroutines one by one; waiter `i` can run its `cmd.Wait()` only once it has
been spawned, which the program order of lines 126-137 puts strictly after
the whole start loop. -/
def lstep (n : Nat) (s : LState) : LThread → LState
  | .main =>
    if s.started < n then
      { s with started := s.started + 1,
               trace := s.trace ++ [.start s.started] }
    else if s.spawned < n then
      { s with spawned := s.spawned + 1 }
    else s
  | .waiter i =>
    if i < s.spawned ∧ i ∉ s.waiterDone then
      { s with waiterDone := i :: s.waiterDone,
               trace := s.trace ++ [.wait i] }
    else s

/-- Runs a schedule of thread steps from a given state. -/
def lrunFrom (n : Nat) : LState → List LThread → LState
  | s, [] => s
  | s, th :: sched => lrunFrom n (lstep n s th) sched

/-- Runs a schedule from the state in which `runCommands` is entered:
nothing started, nothing spawned. -/
def lrun (n : Nat) (sched : List LThread) : LState :=
  lrunFrom n ⟨0, 0, [], []⟩ sched

/-! ## Job control: the first program in `src/unnamed/part_006` -/

/-- The result of `cmd.Wait()` as `waitForJob` inspects it: `none` models a
nil error (normal completion), `exitError c` a `*exec.ExitError` whose
`ExitCode()` is `c`, `otherError` any other non-nil error (an error
retrieving the exit status). -/
inductive WaitErr where
  | exitError (code : Int)
  | otherError
  deriving DecidableEq, Repr

/-- Embeds the status string `waitForJob` derives from the wait result
(`src/unnamed/part_006` lines 218-226). -/
def statusAfterWait : Option WaitErr → String
  | some (.exitError c) => "Exited (" ++ toString c ++ ")"
  | some .otherError => "Errored"
  | none => "Done"

/-- Models the `os/exec` contract for a process that ran to termination:
exit code 0 yields a nil error from `Wait`, a nonzero exit code `c` yields a
`*exec.ExitError` carrying `c`. -/
def waitResultOfExit (code : Int) : Option WaitErr :=
  if code = 0 then none else some (.exitError code)

/-- A job table entry (the `Job` struct, lines 23-28): the job id, its
status string, and whether its `stopChan` has been closed. -/
structure Job where
  jobID : Nat
  status : String
  stopClosed : Bool
  deriving DecidableEq, Repr

/-- The job-table state of the `Shell` struct (lines 36-39): the
`map[int]*Job` as an association list plus the id counter, which `NewShell`
initialises to 1 (line 68). -/
structure JobTable where
  jobs : List (Nat × Job)
  nextJobID : Nat
  deriving DecidableEq, Repr

/-- The table as `NewShell` builds it: no jobs, `nextJobID = 1`. -/
def JobTable.init : JobTable := ⟨[], 1⟩

/-- Embeds the registration in the background branch of `runExternal`
(lines 193-200): a Job with status `"Running"` and id `s.nextJobID` is
stored under that id and the counter incremented.  Returns the new table
and the assigned id. -/
def registerJob (t : JobTable) : JobTable × Nat :=
  (⟨(t.nextJobID, ⟨t.nextJobID, "Running", false⟩) :: t.jobs, t.nextJobID + 1⟩,
   t.nextJobID)

/-- Embeds the reclaim step of `foregroundJob` (lines 286-291): look the id
up; if absent the operation fails; otherwise the entry is deleted from the
map and the job's stopChan closed.  Returns the new table and the reclaimed
job, if any. -/
def reclaimJob (t : JobTable) (id : Nat) : JobTable × Option Job :=
  match t.jobs.lookup id with
  | none => (t, none)
  | some j =>
    (⟨t.jobs.filter (fun kv => kv.1 != id), t.nextJobID⟩,
     some { j with stopClosed := true })

/-- Overwrites the status of the job stored under `id`, leaving everything
else unchanged (the effect of a `job.status = ...` assignment through the
stored pointer). -/
def setStatus (t : JobTable) (id : Nat) (st : String) : JobTable :=
  ⟨t.jobs.map (fun kv => if kv.1 = id then (kv.1, { kv.2 with status := st }) else kv),
   t.nextJobID⟩

/-- Embeds `waitForJob` acting on the job it holds (lines 212-229): if the
job's stopChan is already closed the waiter returns without writing;
otherwise it writes the status derived from the wait result. -/
def waitForJob (j : Job) (res : Option WaitErr) : Job :=
  if j.stopClosed then j else { j with status := statusAfterWait res }

/-- The operations the job-control shell performs on the job table:
`register` is the background branch of `runExternal` (lines 193-200);
`waiterUpdate` is a waiter writing the wait status into a still-present job
(lines 218-226); `fg` is the reclaim in `foregroundJob` (lines 286-291);
`bg` is `backgroundJob` (lines 308-327).  `handleSignals` (lines 341-355)
performs no job-table write: SIGINT and SIGTSTP only print a message and
SIGCHLD reaps terminated children via `Wait4`, so no operation of the
source writes `"Stopped"`. -/
inductive JobOp where
  | register
  | waiterUpdate (id : Nat) (res : Option WaitErr)
  | fg (id : Nat)
  | bg (id : Nat)
  deriving DecidableEq, Repr

/-- Applies one operation to the table, returning the new table and the
error message printed for a failed `fg`/`bg`, if any. -/
def applyOp (t : JobTable) : JobOp → JobTable × Option String
  | .register => ((registerJob t).1, none)
  | .waiterUpdate id res =>
    match t.jobs.lookup id with
    | none => (t, none)
    | some _ => (setStatus t id (statusAfterWait res), none)
  | .fg id =>
    match t.jobs.lookup id with
    | none => (t, some "fg: job not found")
    | some _ => ((reclaimJob t id).1, none)
  | .bg id =>
    match t.jobs.lookup id with
    | none => (t, some "bg: job not found")
    | some j =>
      if j.status = "Stopped" then (setStatus t id "Running", none)
      else (t, some "bg: job is not stopped")

/-- Events observable in a run of table operations: an id assigned by
`register`, an id successfully reclaimed by `fg`. -/
inductive TableEvent where
  | assigned (id : Nat)
  | reclaimed (id : Nat)
  deriving DecidableEq, Repr

/-- The events one operation emits from table `t`. -/
def opEvents (t : JobTable) : JobOp → List TableEvent
  | .register => [.assigned t.nextJobID]
  | .fg id => if (t.jobs.lookup id).isSome then [.reclaimed id] else []
  | _ => []

/-- Runs a sequence of table operations, recording assignment and reclaim
events. -/
def runOps : JobTable → List JobOp → JobTable × List TableEvent
  | t, [] => (t, [])
  | t, op :: rest =>
    let r := runOps (applyOp t op).1 rest
    (r.1, opEvents t op ++ r.2)

/-- The ids assigned in an event list, in order. -/
def assignedIds (evs : List TableEvent) : List Nat :=
  evs.filterMap (fun ev => match ev with | .assigned id => some id | _ => none)

/-! ## Interrupt handling: `(*Shell).handleSignals` and `Run`,
`src/unnamed/part_005` lines 53-80 and 150-167 -/

/-- Session interrupt state: the consecutive-interrupt counter
(`s.interruptCount`), whether the shell has force-exited, and whether
history has been persisted. -/
structure SigState where
  interruptCount : Nat
  exited : Bool
  historySaved : Bool
  deriving DecidableEq, Repr

/-- The events the interrupt counter reacts to: a SIGINT delivery, and the
completion of a dispatched command line in `Run`. -/
inductive SigEvent where
  | sigint
  | commandDispatched
  deriving DecidableEq, Repr

/-- Embeds the SIGINT branch of `handleSignals` (lines 152-164) and the
counter reset in `Run` (line 78).  On SIGINT the counter is incremented; if
it reaches 2 the history is saved and the process exits; below 2 an
advisory is printed and the signal forwarded to the foreground commands.
After every dispatched command `Run` resets the counter to 0. -/
def sigStep (s : SigState) : SigEvent → SigState
  | .sigint =>
    if s.exited then s
    else if s.interruptCount + 1 ≥ 2 then
      { s with interruptCount := s.interruptCount + 1,
               historySaved := true, exited := true }
    else { s with interruptCount := s.interruptCount + 1 }
  | .commandDispatched =>
    if s.exited then s else { s with interruptCount := 0 }

/-! ## Background launch streams: `(*Shell).runExternal`,
`src/unnamed/part_006` lines 173-210 -/

/-- The three standard-stream fields of the single `exec.Cmd` built by
`runExternal`. -/
structure ExtStreams where
  stdin : Stdio
  stdout : Stdio
  stderr : Stdio
  deriving DecidableEq, Repr

/-- Embeds the stream assignment of `runExternal` (lines 186-189 and
206-208): in background mode all three fields are set to nil, detaching the
child from every shell stream; in foreground mode stdin, stdout and stderr
are the shell's own streams. -/
def runExternalStreams (background : Bool) : ExtStreams :=
  if background then ⟨.detached, .detached, .detached⟩
  else ⟨.shellStdin, .shellStdout, .shellStderr⟩

/-! ## The reclaim/waiter interleaving, `src/unnamed/part_006`
lines 212-229 and 277-306

The `jobs` map and the `Job` records are shared between the interactive
loop and the per-job waiter goroutines with no mutex anywhere in the file;
the only coordination is `stopChan`.  The model below gives each thread its
program counter and makes each shared-memory access one atomic step, which
is the finest-grained behaviour the unsynchronized source admits. -/

/-- Program counter of a job's waiter once `cmd.Wait()` has returned
(lines 213-228): first the non-blocking select on `stopChan`, then, in the
default branch, the status write. -/
inductive WaiterPC where
  | checkStop
  | writeStatus
  | finished
  deriving DecidableEq, Repr

/-- Program counter of the reclaim path of `foregroundJob` (lines 290-291):
delete the entry from the jobs map, then close the stopChan. -/
inductive ReclaimPC where
  | deleteEntry
  | closeChan
  | finished
  deriving DecidableEq, Repr

/-- Joint state of one job's waiter and one concurrent `fg` reclaim of the
same job.  `inTable`: the id is still present in the jobs map;
`stopClosed`: stopChan has been closed; `statusWriteAfterReclaim`: a status
write was applied after the reclaim had completed both its steps. -/
structure RaceState where
  waiter : WaiterPC
  reclaimer : ReclaimPC
  inTable : Bool
  stopClosed : Bool
  status : String
  statusWriteAfterReclaim : Bool
  deriving DecidableEq, Repr

/-- Which thread takes the next atomic step. -/
inductive Thread where
  | waiter
  | reclaimer
  deriving DecidableEq, Repr

/-- One atomic step of the chosen thread, for a waiter whose `cmd.Wait()`
returned `res`.  The waiter's select returns (and the waiter stops) when
`stopChan` is already closed, otherwise the default branch runs and writes
the status (lines 214-227); the reclaimer deletes the map entry then closes
the channel (lines 290-291). -/
def raceStep (res : Option WaitErr) (s : RaceState) : Thread → RaceState
  | .waiter =>
    match s.waiter with
    | .checkStop =>
      if s.stopClosed then { s with waiter := .finished }
      else { s with waiter := .writeStatus }
    | .writeStatus =>
      let flag := s.statusWriteAfterReclaim || decide (s.reclaimer = .finished)
      { s with waiter := .finished
               status := statusAfterWait res
               statusWriteAfterReclaim := flag }
    | .finished => s
  | .reclaimer =>
    match s.reclaimer with
    | .deleteEntry => { s with reclaimer := .closeChan, inTable := false }
    | .closeChan => { s with reclaimer := .finished, stopClosed := true }
    | .finished => s

/-- Runs a schedule of thread steps. -/
def raceRun (res : Option WaitErr) : RaceState → List Thread → RaceState
  | s, [] => s
  | s, th :: rest => raceRun res (raceStep res s th) rest

/-- The state at the moment the job's process terminates while the job is
still registered and `fg` is about to reclaim it: waiter about to check
`stopChan`, reclaimer about to delete the entry. -/
def raceInit : RaceState :=
  ⟨.checkStop, .deleteEntry, true, false, "Running", false⟩

/-! ## Invariant definitions used by the proofs -/

/-- Invariant of the `runCommands` machine: the start loop has issued
`started ≤ n` starts, waiters exist only once the start loop is done, and
the trace is those starts in program order followed by wait events only —
wait events exist only when all `n` starts are done. -/
def LInv (n : Nat) (s : LState) : Prop :=
  s.started ≤ n ∧ (s.spawned ≠ 0 → s.started = n) ∧
  ∃ w, (∀ e ∈ w, ∃ k, e = PEvent.wait k) ∧
    s.trace = (List.range s.started).map PEvent.start ++ w ∧
    (w ≠ [] → s.started = n)

/-- Every key stored in the table is below the id counter. -/
def IdsBounded (t : JobTable) : Prop :=
  ∀ kv ∈ t.jobs, kv.1 < t.nextJobID

/-- No stored job has status `"Stopped"`. -/
def NoStopped (t : JobTable) : Prop :=
  ∀ kv ∈ t.jobs, kv.2.status ≠ "Stopped"

/-- The number of `register` operations in a sequence. -/
def countRegister : List JobOp → Nat
  | [] => 0
  | .register :: rest => countRegister rest + 1
  | _ :: rest => countRegister rest

/-! ## Pipeline builder lemmas -/

theorem cleanStage_cons {s : List String} {rest : List (List String)}
    (hc : CleanStages (s :: rest)) :
    (∃ w a, s = w :: a ∧ isLoopBuiltin w = false) ∧ CleanStages rest := by
  constructor
  · have hs := hc s (List.mem_cons_self ..)
    cases s with
    | nil => simp [cleanStage] at hs
    | cons w a =>
      refine ⟨w, a, rfl, ?_⟩
      simpa [cleanStage] using hs
  · intro t ht
    exact hc t (List.mem_cons_of_mem _ ht)

theorem execLoop_eq_chain (l : List (List String)) (hc : CleanStages l) :
    ∀ i p inp acc, execLoop (i + l.length) l i inp p acc =
      .pipeline (acc.reverse ++ chainCmds l inp p) (p + (l.length - 1)) := by
  induction l with
  | nil => intro i p inp acc; simp [execLoop, chainCmds]
  | cons s rest ih =>
    intro i p inp acc
    obtain ⟨⟨w, args, rfl, hw⟩, hcr⟩ := cleanStage_cons hc
    simp only [isLoopBuiltin, Bool.or_eq_false_iff, decide_eq_false_iff_not] at hw
    obtain ⟨⟨h1, h2⟩, h3⟩ := hw
    cases rest with
    | nil =>
      have hlt : ¬ (i < i + [w :: args].length - 1) := by simp
      rw [execLoop, if_neg h1, if_neg h2, if_neg h3, if_neg hlt, execLoop]
      simp [chainCmds]
    | cons s' rest' =>
      have hlt : i < i + ((w :: args) :: s' :: rest').length - 1 := by
        simp
      have htot : i + ((w :: args) :: s' :: rest').length
          = (i + 1) + (s' :: rest').length := by simp; omega
      have hrec := ih hcr (i + 1) (p + 1) (.pipeRead p)
        (⟨w :: args, inp, .pipeWrite p, .shellStderr⟩ :: acc)
      rw [execLoop, if_neg h1, if_neg h2, if_neg h3, if_pos hlt, htot, hrec]
      have hp : (p + 1) + ((s' :: rest').length - 1)
          = p + (((w :: args) :: s' :: rest').length - 1) := by
        simp; omega
      rw [hp]
      simp [chainCmds]

theorem chainCmds_length (l : List (List String)) :
    ∀ inp p, (chainCmds l inp p).length = l.length := by
  induction l with
  | nil => intro inp p; simp [chainCmds]
  | cons s rest ih =>
    intro inp p
    cases rest with
    | nil => simp [chainCmds]
    | cons s' rest' => simp [chainCmds, ih]

theorem chainCmds_stdout_mid (l : List (List String)) :
    ∀ j inp p, j + 1 < l.length →
      (chainCmds l inp p)[j]?.map Cmd.stdout = some (.pipeWrite (p + j)) := by
  induction l with
  | nil => intro j inp p h; simp at h
  | cons s rest ih =>
    intro j inp p h
    cases rest with
    | nil => simp at h
    | cons s' rest' =>
      cases j with
      | zero => simp [chainCmds]
      | succ k =>
        have hk : k + 1 < (s' :: rest').length := by simpa using h
        have := ih k (.pipeRead p) (p + 1) hk
        simp only [chainCmds, List.getElem?_cons_succ]
        rw [this]
        have : p + 1 + k = p + (k + 1) := by omega
        rw [this]

theorem chainCmds_stdin_zero (l : List (List String)) :
    ∀ inp p, l ≠ [] →
      (chainCmds l inp p)[0]?.map Cmd.stdin = some inp := by
  intro inp p h
  cases l with
  | nil => exact absurd rfl h
  | cons s rest =>
    cases rest with
    | nil => simp [chainCmds]
    | cons s' rest' => simp [chainCmds]

theorem chainCmds_stdin_succ (l : List (List String)) :
    ∀ j inp p, j + 1 < l.length →
      (chainCmds l inp p)[j + 1]?.map Cmd.stdin = some (.pipeRead (p + j)) := by
  induction l with
  | nil => intro j inp p h; simp at h
  | cons s rest ih =>
    intro j inp p h
    cases rest with
    | nil => simp at h
    | cons s' rest' =>
      cases j with
      | zero =>
        simp only [chainCmds, List.getElem?_cons_succ]
        have := chainCmds_stdin_zero (s' :: rest') (.pipeRead p) (p + 1)
          (by simp)
        rw [this]
        simp
      | succ k =>
        have hk : k + 1 < (s' :: rest').length := by simpa using h
        have := ih k (.pipeRead p) (p + 1) hk
        simp only [chainCmds, List.getElem?_cons_succ]
        rw [this]
        have : p + 1 + k = p + (k + 1) := by omega
        rw [this]

theorem chainCmds_last_stdout (l : List (List String)) :
    ∀ inp p, l ≠ [] →
      (chainCmds l inp p).getLast?.map Cmd.stdout = some .shellStdout := by
  induction l with
  | nil => intro inp p h; exact absurd rfl h
  | cons s rest ih =>
    intro inp p _
    cases rest with
    | nil => simp [chainCmds]
    | cons s' rest' =>
      have htail := ih (.pipeRead p) (p + 1) (by simp)
      obtain ⟨c, cs, hcs⟩ : ∃ c cs, chainCmds (s' :: rest') (.pipeRead p) (p + 1) = c :: cs := by
        cases hch : chainCmds (s' :: rest') (.pipeRead p) (p + 1) with
        | nil =>
          have := chainCmds_length (s' :: rest') (.pipeRead p) (p + 1)
          rw [hch] at this
          simp at this
        | cons c cs => exact ⟨c, cs, rfl⟩
      rw [hcs] at htail
      simp only [chainCmds, hcs, List.getLast?_cons_cons]
      exact htail

theorem chainCmds_stderr (l : List (List String)) :
    ∀ inp p c, c ∈ chainCmds l inp p → c.stderr = .shellStderr := by
  induction l with
  | nil => intro inp p c h; simp [chainCmds] at h
  | cons s rest ih =>
    intro inp p c h
    cases rest with
    | nil =>
      simp [chainCmds] at h
      rw [h]
    | cons s' rest' =>
      simp only [chainCmds, List.mem_cons] at h
      rcases h with h | h
      · rw [h]
      · exact ih (.pipeRead p) (p + 1) c h

theorem executeCommand_eq_chain (stages : List (List String))
    (hc : CleanStages stages) :
    executeCommand stages
      = .pipeline (chainCmds stages .shellStdin 0) (stages.length - 1) := by
  have := execLoop_eq_chain stages hc 0 0 .shellStdin []
  simpa [executeCommand] using this

theorem nonEmptyStages_ne_nil {rest : List (List String)}
    (hne : rest ≠ []) (hlast : rest.getLast? ≠ some []) :
    nonEmptyStages rest ≠ [] := by
  have hmem : rest.getLast hne ∈ rest := List.getLast_mem hne
  have hval : rest.getLast? = some (rest.getLast hne) := List.getLast?_eq_getLast ..
  have hx : rest.getLast hne ≠ [] := by
    intro h
    rw [h] at hval
    exact hlast hval
  have : rest.getLast hne ∈ nonEmptyStages rest := by
    rw [nonEmptyStages, List.mem_filter]
    refine ⟨hmem, ?_⟩
    simpa [List.isEmpty_iff] using hx
  exact List.ne_nil_of_mem this

theorem execLoop_skip_empty (l : List (List String))
    (hc : CleanStages (nonEmptyStages l)) (hlast : l.getLast? ≠ some []) :
    ∀ i i' p inp acc,
      execLoop (i + l.length) l i inp p acc
        = execLoop (i' + (nonEmptyStages l).length) (nonEmptyStages l) i' inp p acc := by
  induction l with
  | nil => intro i i' p inp acc; simp [nonEmptyStages, execLoop]
  | cons s rest ih =>
    intro i i' p inp acc
    cases s with
    | nil =>
      have hrne : rest ≠ [] := by
        rintro rfl
        simp at hlast
      have hrlast : rest.getLast? ≠ some [] := by
        obtain ⟨t, ts, rfl⟩ := List.exists_cons_of_ne_nil hrne
        rwa [List.getLast?_cons_cons] at hlast
      have hfe : nonEmptyStages ([] :: rest) = nonEmptyStages rest := by
        simp [nonEmptyStages]
      have h1 : execLoop (i + ([] :: rest).length) ([] :: rest) i inp p acc
          = execLoop ((i + 1) + rest.length) rest (i + 1) inp p acc := by
        rw [execLoop]
        congr 1
        simp; omega
      rw [h1, hfe]
      rw [hfe] at hc
      exact ih hc hrlast (i + 1) i' p inp acc
    | cons w args =>
      have hfe : nonEmptyStages ((w :: args) :: rest)
          = (w :: args) :: nonEmptyStages rest := by
        simp [nonEmptyStages]
      have hcw : cleanStage (w :: args) = true := by
        apply hc
        rw [hfe]
        exact List.mem_cons_self ..
      have hw : isLoopBuiltin w = false := by simpa [cleanStage] using hcw
      simp only [isLoopBuiltin, Bool.or_eq_false_iff, decide_eq_false_iff_not] at hw
      obtain ⟨⟨h1, h2⟩, h3⟩ := hw
      cases hr : rest with
      | nil =>
        subst hr
        rw [hfe]
        simp only [nonEmptyStages, List.filter_nil]
        have hne1 : ¬ (i < i + [w :: args].length - 1) := by simp
        have hne2 : ¬ (i' < i' + [w :: args].length - 1) := by simp
        rw [execLoop, if_neg h1, if_neg h2, if_neg h3, if_neg hne1, execLoop]
        rw [execLoop, if_neg h1, if_neg h2, if_neg h3, if_neg hne2, execLoop]
      | cons t ts =>
        subst hr
        have hrlast : (t :: ts).getLast? ≠ some [] := by
          rwa [List.getLast?_cons_cons] at hlast
        have hfne : nonEmptyStages (t :: ts) ≠ [] :=
          nonEmptyStages_ne_nil (by simp) hrlast
        have hcr : CleanStages (nonEmptyStages (t :: ts)) := by
          intro x hx
          apply hc
          rw [hfe]
          exact List.mem_cons_of_mem _ hx
        have hlt1 : i < i + ((w :: args) :: t :: ts).length - 1 := by simp
        have hlt2 : i' < i' + ((w :: args) :: nonEmptyStages (t :: ts)).length - 1 := by
          have : 0 < (nonEmptyStages (t :: ts)).length :=
            List.length_pos.mpr hfne
          simp
          omega
        rw [hfe]
        rw [execLoop, if_neg h1, if_neg h2, if_neg h3, if_pos hlt1]
        rw [execLoop, if_neg h1, if_neg h2, if_neg h3, if_pos hlt2]
        have e1 : i + ((w :: args) :: t :: ts).length = (i + 1) + (t :: ts).length := by
          simp; omega
        have e2 : i' + ((w :: args) :: nonEmptyStages (t :: ts)).length
            = (i' + 1) + (nonEmptyStages (t :: ts)).length := by
          simp; omega
        rw [e1, e2]
        exact ih hcr hrlast (i + 1) (i' + 1) (p + 1) (.pipeRead p) _

/-! ## Claim theorems -/

/-- C10 (amended): an empty pipeline stage in the input is silently skipped
during pipeline construction rather than rejected with an error, and when
the raw stage list does not end with an empty stage (leading and doubled
pipe separators) the command runs as the pipeline of its remaining
non-empty stages; a trailing empty stage, however, changes the wiring of
the last non-empty stage (see the counterexample). -/
theorem executeCommand_skip_empty (stages : List (List String))
    (hc : CleanStages (nonEmptyStages stages))
    (hlast : stages.getLast? ≠ some []) :
    executeCommand stages = executeCommand (nonEmptyStages stages) := by
  have := execLoop_skip_empty stages hc hlast 0 0 0 .shellStdin []
  simpa [executeCommand] using this

/-- Witness for `executeCommand_skip_empty`: a raw split with a leading and
a doubled empty stage runs as the pipeline of its two non-empty stages. -/
theorem executeCommand_skip_empty_witness :
    CleanStages (nonEmptyStages [[], ["a"], [], ["b"]]) ∧
    executeCommand [[], ["a"], [], ["b"]]
      = executeCommand (nonEmptyStages [[], ["a"], [], ["b"]]) :=
  ⟨by decide, executeCommand_skip_empty _ (by decide) (by decide)⟩

/-- C10 counterexample: with a trailing empty stage (input `a |`), the
built pipeline differs from the pipeline of the remaining non-empty stages:
the last command's stdout is wired to a freshly allocated pipe that nothing
reads instead of the shell's stdout. -/
theorem executeCommand_trailing_empty_cex :
    executeCommand [["a"], []] ≠ executeCommand (nonEmptyStages [["a"], []]) ∧
    executeCommand [["a"], []]
      = .pipeline [⟨["a"], .shellStdin, .pipeWrite 0, .shellStderr⟩] 1 ∧
    executeCommand (nonEmptyStages [["a"], []])
      = .pipeline [⟨["a"], .shellStdin, .shellStdout, .shellStderr⟩] 0 := by
  decide

/-- C1: for every pipeline of `n ≥ 1` clean stages accepted by the builder,
`executeCommand` allocates exactly `n − 1` inter-stage pipes (none when
`n = 1`), wires stage `i`'s stdout to pipe `i` and stage `i+1`'s stdin to
pipe `i` for every `i < n − 1`, connects the first stage's stdin to the
shell's stdin, and connects the last stage's stdout to the shell's own
stdout. -/
theorem executeCommand_pipeline_wiring (stages : List (List String))
    (hc : CleanStages stages) (hne : stages ≠ []) :
    ∃ cmds,
      executeCommand stages = .pipeline cmds (stages.length - 1) ∧
      cmds.length = stages.length ∧
      (∀ j, j + 1 < stages.length →
        cmds[j]?.map Cmd.stdout = some (.pipeWrite j) ∧
        cmds[j + 1]?.map Cmd.stdin = some (.pipeRead j)) ∧
      cmds[0]?.map Cmd.stdin = some .shellStdin ∧
      cmds.getLast?.map Cmd.stdout = some .shellStdout := by
  refine ⟨chainCmds stages .shellStdin 0, executeCommand_eq_chain stages hc,
    chainCmds_length stages _ _, ?_,
    chainCmds_stdin_zero stages _ _ hne, chainCmds_last_stdout stages _ _ hne⟩
  intro j hj
  refine ⟨?_, ?_⟩
  · have := chainCmds_stdout_mid stages j .shellStdin 0 hj
    simpa using this
  · have := chainCmds_stdin_succ stages j .shellStdin 0 hj
    simpa using this

/-- Witness for `executeCommand_pipeline_wiring` at a three-stage
pipeline. -/
theorem executeCommand_pipeline_wiring_witness :
    CleanStages [["printf", "b"], ["sort"], ["head", "-n", "2"]] ∧
    ∃ cmds,
      executeCommand [["printf", "b"], ["sort"], ["head", "-n", "2"]]
        = .pipeline cmds 2 ∧
      cmds.length = 3 ∧
      (∀ j, j + 1 < 3 →
        cmds[j]?.map Cmd.stdout = some (.pipeWrite j) ∧
        cmds[j + 1]?.map Cmd.stdin = some (.pipeRead j)) ∧
      cmds[0]?.map Cmd.stdin = some .shellStdin ∧
      cmds.getLast?.map Cmd.stdout = some .shellStdout :=
  ⟨by decide, executeCommand_pipeline_wiring
    [["printf", "b"], ["sort"], ["head", "-n", "2"]] (by decide) (by decide)⟩

/-- In a list of `m` starts followed by wait events only, every start
position precedes every wait position. -/
theorem start_position_lt_wait_position {m : Nat} {w : List PEvent}
    {a b i j : Nat} (hw : ∀ e ∈ w, ∃ k, e = PEvent.wait k)
    (ha : ((List.range m).map PEvent.start ++ w)[a]? = some (PEvent.start i))
    (hb : ((List.range m).map PEvent.start ++ w)[b]? = some (PEvent.wait j)) :
    a < b := by
  have hlen : ((List.range m).map PEvent.start).length = m := by simp
  have hb' : m ≤ b := by
    by_contra hcon
    push_neg at hcon
    rw [List.getElem?_append_left (by omega)] at hb
    simp [List.getElem?_range hcon] at hb
  have ha' : a < m := by
    by_contra hcon
    push_neg at hcon
    rw [List.getElem?_append_right (by omega)] at ha
    obtain ⟨k, hk⟩ := hw _ (List.getElem?_mem ha)
    exact PEvent.noConfusion hk
  omega


theorem linv_step (n : Nat) (s : LState) (h : LInv n s) (th : LThread) :
    LInv n (lstep n s th) := by
  obtain ⟨st, sp, wd, tr⟩ := s
  obtain ⟨hle, hsp, w, hw, htr, hwn⟩ := h
  simp only at hle hsp htr hwn
  cases th with
  | main =>
    by_cases h1 : st < n
    · have hweq : w = [] := by
        by_contra hcon
        exact absurd (hwn hcon) (by omega)
      simp only [lstep, if_pos h1]
      refine ⟨?_, ?_, [], by simp, ?_, by simp⟩
      · show st + 1 ≤ n
        omega
      · show sp ≠ 0 → st + 1 = n
        intro hs
        exact absurd (hsp hs) (by omega)
      · show tr ++ [PEvent.start st]
          = (List.range (st + 1)).map PEvent.start ++ []
        rw [htr, hweq, List.append_nil, List.append_nil, List.range_succ]
        simp
    · by_cases h2 : sp < n
      · simp only [lstep, if_neg h1, if_pos h2]
        refine ⟨hle, ?_, w, hw, htr, ?_⟩
        · show sp + 1 ≠ 0 → st = n
          intro _
          omega
        · intro _
          show st = n
          omega
      · simp only [lstep, if_neg h1, if_neg h2]
        exact ⟨hle, hsp, w, hw, htr, hwn⟩
  | waiter i =>
    by_cases hc : i < sp ∧ i ∉ wd
    · simp only [lstep, if_pos hc]
      refine ⟨hle, hsp, w ++ [PEvent.wait i], ?_, ?_, ?_⟩
      · intro e he
        rcases List.mem_append.mp he with he | he
        · exact hw e he
        · exact ⟨i, by simpa using he⟩
      · show tr ++ [PEvent.wait i]
          = (List.range st).map PEvent.start ++ (w ++ [PEvent.wait i])
        rw [htr, List.append_assoc]
      · intro _
        exact hsp (by omega)
    · simp only [lstep, if_neg hc]
      exact ⟨hle, hsp, w, hw, htr, hwn⟩

theorem linv_runFrom (n : Nat) (sched : List LThread) :
    ∀ s, LInv n s → LInv n (lrunFrom n s sched) := by
  induction sched with
  | nil => intro s h; exact h
  | cons th rest ih =>
    intro s h
    exact ih _ (linv_step n s h th)

theorem linv_lrun (n : Nat) (sched : List LThread) : LInv n (lrun n sched) :=
  linv_runFrom n sched _
    ⟨Nat.zero_le n, by simp, [], by simp, by simp, by simp⟩

/-- C2: in every schedule of the `runCommands` threads, every stage start
precedes every wait in the issued call trace: the start loop completes
before any waiter goroutine can call `cmd.Wait()`, so no wait on any stage
precedes the start of the last stage. -/
theorem runCommands_start_before_wait (n : Nat) (sched : List LThread) :
    ∀ a b i j : Nat,
      (lrun n sched).trace[a]? = some (PEvent.start i) →
      (lrun n sched).trace[b]? = some (PEvent.wait j) → a < b := by
  intro a b i j ha hb
  obtain ⟨-, -, w, hw, htr, -⟩ := linv_lrun n sched
  rw [htr] at ha hb
  exact start_position_lt_wait_position hw ha hb

/-- Witness for `runCommands_start_before_wait` on a concrete schedule of a
two-stage pipeline. -/
theorem runCommands_start_before_wait_witness :
    (lrun 2 [.main, .main, .main, .main, .waiter 0, .waiter 1]).trace
      = [PEvent.start 0, .start 1, .wait 0, .wait 1] ∧ (1 : Nat) < 2 :=
  ⟨by decide,
   runCommands_start_before_wait 2
     [.main, .main, .main, .main, .waiter 0, .waiter 1]
     1 2 1 0 (by decide) (by decide)⟩

/-- C3 (amended): when starting stage `k` of a pipeline fails after stages
`0..k-1` started successfully, `runCommands` returns the launch error
immediately and starts no later stage, but performs no termination or
cleanup: exactly the already-started stages `0..k-1` remain started. -/
theorem runCommands_launch_failure (pre : List Cmd) (c : Cmd)
    (post : List Cmd) (fails : Cmd → Bool)
    (hpre : ∀ x ∈ pre, fails x = false) (hc : fails c = true) :
    startCmds (pre ++ c :: post) fails = (pre, some c) := by
  induction pre with
  | nil => simp [startCmds, hc]
  | cons x xs ih =>
    have hx : fails x = false := hpre x (List.mem_cons_self ..)
    have ih' := ih (fun y hy => hpre y (List.mem_cons_of_mem _ hy))
    simp [startCmds, hx, ih']

/-- Witness for `runCommands_launch_failure` on a three-stage pipeline whose
second stage fails to start. -/
theorem runCommands_launch_failure_witness :
    startCmds
      [⟨["a"], .shellStdin, .pipeWrite 0, .shellStderr⟩,
       ⟨["bad"], .pipeRead 0, .pipeWrite 1, .shellStderr⟩,
       ⟨["c"], .pipeRead 1, .shellStdout, .shellStderr⟩]
      (fun cc => cc.argv = ["bad"])
      = ([⟨["a"], .shellStdin, .pipeWrite 0, .shellStderr⟩],
         some ⟨["bad"], .pipeRead 0, .pipeWrite 1, .shellStderr⟩) :=
  runCommands_launch_failure
    [⟨["a"], .shellStdin, .pipeWrite 0, .shellStderr⟩]
    ⟨["bad"], .pipeRead 0, .pipeWrite 1, .shellStderr⟩
    [⟨["c"], .pipeRead 1, .shellStdout, .shellStderr⟩]
    (fun cc => cc.argv = ["bad"]) (by decide) (by decide)

/-- C3 counterexample: in a three-stage pipeline whose second stage fails to
start, the launch returns the error yet the started first stage is not
cleaned up — the list of stages still started when `runCommands` returns is
non-empty, not empty as the claim requires. -/
theorem runCommands_launch_failure_cex :
    ((startCmds
      [⟨["a"], .shellStdin, .pipeWrite 0, .shellStderr⟩,
       ⟨["bad"], .pipeRead 0, .pipeWrite 1, .shellStderr⟩,
       ⟨["c"], .pipeRead 1, .shellStdout, .shellStderr⟩]
      (fun cc => cc.argv = ["bad"])).2).isSome = true ∧
    (startCmds
      [⟨["a"], .shellStdin, .pipeWrite 0, .shellStderr⟩,
       ⟨["bad"], .pipeRead 0, .pipeWrite 1, .shellStderr⟩,
       ⟨["c"], .pipeRead 1, .shellStdout, .shellStderr⟩]
      (fun cc => cc.argv = ["bad"])).1 ≠ [] := by
  decide

/-- C4: the unsynchronized reclaim/waiter code admits a schedule in which
`fg`'s reclaim fully completes — the entry is deleted and the stopChan
closed — and the job's waiter, which passed the stopChan check just before,
then still applies a status update to the reclaimed job.  The stopChan
check and the status write are not atomic and no mutex guards the table, so
the "no status update after a successful reclaim" guarantee is violated. -/
theorem reclaim_race_update_after_reclaim :
    ∃ sched : List Thread,
      (raceRun none raceInit sched).reclaimer = .finished ∧
      (raceRun none raceInit sched).inTable = false ∧
      (raceRun none raceInit sched).statusWriteAfterReclaim = true :=
  ⟨[.waiter, .reclaimer, .reclaimer, .waiter], by decide, by decide, by decide⟩

/-- C7 counterexample: for a background launch, the child's stderr is nil
(detached) — it is not connected to the shell's own stderr. -/
theorem background_stderr_cex :
    (runExternalStreams true).stderr = .detached ∧
    (runExternalStreams true).stderr ≠ .shellStderr := by
  decide

/-- C7 (amended): a background launch detaches all three standard streams —
stdin, stdout and also stderr; only a foreground launch connects the
child's streams (stderr included) to the shell's own. -/
theorem runExternal_background_streams :
    runExternalStreams true = ⟨.detached, .detached, .detached⟩ ∧
    runExternalStreams false = ⟨.shellStdin, .shellStdout, .shellStderr⟩ := by
  decide

/-- C8: from any live session state, two consecutive interrupts with no
intervening dispatched command force exit with history saved; the counter
is reset to zero after every dispatched command, so after a dispatch a
single interrupt does not exit but two further interrupts do (again saving
history). -/
theorem double_interrupt_forces_exit (s : SigState) (h : s.exited = false) :
    ((sigStep (sigStep s .sigint) .sigint).exited = true ∧
     (sigStep (sigStep s .sigint) .sigint).historySaved = true) ∧
    (sigStep s .commandDispatched).interruptCount = 0 ∧
    (sigStep (sigStep s .commandDispatched) .sigint).exited = false ∧
    ((sigStep (sigStep (sigStep s .commandDispatched) .sigint) .sigint).exited
       = true ∧
     (sigStep (sigStep (sigStep s .commandDispatched) .sigint) .sigint).historySaved
       = true) := by
  obtain ⟨c, e, hsv⟩ := s
  simp only at h
  subst h
  cases c with
  | zero => simp [sigStep]
  | succ m => simp [sigStep]

/-- Witness for `double_interrupt_forces_exit` at the initial session
state. -/
theorem double_interrupt_forces_exit_witness :
    ((sigStep (sigStep ⟨0, false, false⟩ .sigint) .sigint).exited = true ∧
     (sigStep (sigStep ⟨0, false, false⟩ .sigint) .sigint).historySaved = true) ∧
    (sigStep ⟨0, false, false⟩ .commandDispatched).interruptCount = 0 ∧
    (sigStep (sigStep ⟨0, false, false⟩ .commandDispatched) .sigint).exited = false ∧
    ((sigStep (sigStep (sigStep ⟨0, false, false⟩ .commandDispatched) .sigint) .sigint).exited
       = true ∧
     (sigStep (sigStep (sigStep ⟨0, false, false⟩ .commandDispatched) .sigint) .sigint).historySaved
       = true) :=
  double_interrupt_forces_exit ⟨0, false, false⟩ rfl

/-- C6: a registered job is stored with initial status `Running`; for a job
that has not been reclaimed (stopChan open), the waiter writes `Exited (c)`
on termination with nonzero exit code `c`, `Errored` when the wait returns
a non-exit error, and `Done` on normal completion. -/
theorem job_status_lifecycle (t : JobTable) (j : Job) (c : Int)
    (hns : j.stopClosed = false) (hc : c ≠ 0) :
    (registerJob t).1.jobs.lookup (registerJob t).2
      = some ⟨t.nextJobID, "Running", false⟩ ∧
    (waitForJob j (waitResultOfExit c)).status
      = "Exited (" ++ toString c ++ ")" ∧
    (waitForJob j (some .otherError)).status = "Errored" ∧
    (waitForJob j (waitResultOfExit 0)).status = "Done" := by
  refine ⟨?_, ?_, ?_, ?_⟩
  · simp [registerJob, List.lookup]
  · simp [waitForJob, hns, waitResultOfExit, hc, statusAfterWait]
  · simp [waitForJob, hns, statusAfterWait]
  · simp [waitForJob, hns, waitResultOfExit, statusAfterWait]

/-- Looking a key up in the association list finds a stored pair. -/
theorem mem_of_lookup_eq_some {l : List (Nat × Job)} {id : Nat} {j : Job}
    (h : l.lookup id = some j) : (id, j) ∈ l := by
  induction l with
  | nil => simp [List.lookup] at h
  | cons kv rest ih =>
    obtain ⟨k, v⟩ := kv
    by_cases hk : id = k
    · subst hk
      simp [List.lookup] at h
      simp [h]
    · have hbeq : (id == k) = false := by simp [hk]
      simp [List.lookup, hbeq] at h
      exact List.mem_cons_of_mem _ (ih h)

/-- The waiter never writes the status `"Stopped"`. -/
theorem statusAfterWait_ne_stopped (res : Option WaitErr) :
    statusAfterWait res ≠ "Stopped" := by
  match res with
  | none => decide
  | some .otherError => decide
  | some (.exitError c) =>
    intro h
    simp only [statusAfterWait] at h
    have hlen := congrArg String.length h
    rw [String.length_append, String.length_append] at hlen
    have h8 : ("Exited (" : String).length = 8 := rfl
    have h1 : (")" : String).length = 1 := rfl
    have h7 : ("Stopped" : String).length = 7 := rfl
    omega



/-- An entry of the table after `setStatus` comes from an entry of the old
table with the same key, carrying either the new status or its old one. -/
theorem setStatus_mem {t : JobTable} {id : Nat} {st : String} {kv : Nat × Job}
    (h : kv ∈ (setStatus t id st).jobs) :
    ∃ kv0 ∈ t.jobs, kv.1 = kv0.1 ∧
      (kv.2.status = st ∨ kv.2.status = kv0.2.status) := by
  simp only [setStatus, List.mem_map] at h
  obtain ⟨kv0, hkv0, heq⟩ := h
  by_cases hid : kv0.1 = id
  · rw [if_pos hid] at heq
    exact ⟨kv0, hkv0, by rw [← heq], Or.inl (by rw [← heq])⟩
  · rw [if_neg hid] at heq
    exact ⟨kv0, hkv0, by rw [← heq], Or.inr (by rw [← heq])⟩

theorem setStatus_nextJobID (t : JobTable) (id : Nat) (st : String) :
    (setStatus t id st).nextJobID = t.nextJobID := rfl

/-- `applyOp` increments the id counter on `register` and preserves it
otherwise. -/
theorem applyOp_nextJobID (t : JobTable) (op : JobOp) :
    (applyOp t op).1.nextJobID
      = t.nextJobID + (if op = .register then 1 else 0) := by
  cases op with
  | register => simp [applyOp, registerJob]
  | waiterUpdate id res =>
    cases h : t.jobs.lookup id <;> simp [applyOp, h, setStatus]
  | fg id =>
    cases h : t.jobs.lookup id <;> simp [applyOp, h, reclaimJob]
  | bg id =>
    cases h : t.jobs.lookup id <;> simp [applyOp, h]
    split <;> simp [setStatus]

theorem applyOp_nextJobID_ge (t : JobTable) (op : JobOp) :
    t.nextJobID ≤ (applyOp t op).1.nextJobID := by
  rw [applyOp_nextJobID]
  split <;> omega

/-- `applyOp` preserves the id bound. -/
theorem applyOp_bounded {t : JobTable} (hb : IdsBounded t) (op : JobOp) :
    IdsBounded (applyOp t op).1 := by
  cases op with
  | register =>
    intro kv hkv
    rw [applyOp_nextJobID]
    simp only [applyOp, registerJob, List.mem_cons] at hkv
    rcases hkv with rfl | hkv
    · simp
    · have := hb kv hkv
      rw [if_pos rfl]
      omega
  | waiterUpdate id res =>
    cases h : t.jobs.lookup id with
    | none => simpa [applyOp, h] using hb
    | some j =>
      intro kv hkv
      rw [applyOp_nextJobID]
      simp only [applyOp, h] at hkv
      obtain ⟨kv0, hkv0, hkey, _⟩ := setStatus_mem hkv
      have := hb kv0 hkv0
      rw [hkey]
      rw [if_neg (fun hcon => JobOp.noConfusion hcon)]
      omega
  | fg id =>
    cases h : t.jobs.lookup id with
    | none => simpa [applyOp, h] using hb
    | some j =>
      intro kv hkv
      rw [applyOp_nextJobID]
      simp only [applyOp, h, reclaimJob] at hkv
      have := hb kv (List.mem_of_mem_filter hkv)
      rw [if_neg (fun hcon => JobOp.noConfusion hcon)]
      omega
  | bg id =>
    cases h : t.jobs.lookup id with
    | none => simpa [applyOp, h] using hb
    | some j =>
      by_cases hs : j.status = "Stopped"
      · intro kv hkv
        rw [applyOp_nextJobID]
        simp only [applyOp, h, if_pos hs] at hkv
        obtain ⟨kv0, hkv0, hkey, _⟩ := setStatus_mem hkv
        have := hb kv0 hkv0
        rw [hkey]
        rw [if_neg (fun hcon => JobOp.noConfusion hcon)]
        omega
      · simpa [applyOp, h, hs] using hb

/-- `applyOp` never introduces status `"Stopped"`. -/
theorem applyOp_noStopped {t : JobTable} (hn : NoStopped t) (op : JobOp) :
    NoStopped (applyOp t op).1 := by
  cases op with
  | register =>
    intro kv hkv
    simp only [applyOp, registerJob, List.mem_cons] at hkv
    rcases hkv with rfl | hkv
    · exact (by decide : ("Running" : String) ≠ "Stopped")
    · exact hn kv hkv
  | waiterUpdate id res =>
    cases h : t.jobs.lookup id with
    | none => simpa [applyOp, h] using hn
    | some j =>
      intro kv hkv
      simp only [applyOp, h] at hkv
      obtain ⟨kv0, hkv0, _, hst⟩ := setStatus_mem hkv
      rcases hst with hst | hst
      · rw [hst]; exact statusAfterWait_ne_stopped res
      · rw [hst]; exact hn kv0 hkv0
  | fg id =>
    cases h : t.jobs.lookup id with
    | none => simpa [applyOp, h] using hn
    | some j =>
      intro kv hkv
      simp only [applyOp, h, reclaimJob] at hkv
      exact hn kv (List.mem_of_mem_filter hkv)
  | bg id =>
    cases h : t.jobs.lookup id with
    | none => simpa [applyOp, h] using hn
    | some j =>
      by_cases hs : j.status = "Stopped"
      · intro kv hkv
        simp only [applyOp, h, if_pos hs] at hkv
        obtain ⟨kv0, hkv0, _, hst⟩ := setStatus_mem hkv
        rcases hst with hst | hst
        · rw [hst]; decide
        · rw [hst]; exact hn kv0 hkv0
      · simpa [applyOp, h, hs] using hn

theorem runOps_noStopped (ops : List JobOp) :
    ∀ t, NoStopped t → NoStopped (runOps t ops).1 := by
  induction ops with
  | nil => intro t h; simpa [runOps] using h
  | cons op rest ih =>
    intro t h
    simpa [runOps] using ih _ (applyOp_noStopped h op)

/-- Witness for `job_status_lifecycle` with exit code 7 from the initial
table. -/
theorem job_status_lifecycle_witness :
    (registerJob JobTable.init).1.jobs.lookup (registerJob JobTable.init).2
      = some ⟨1, "Running", false⟩ ∧
    (waitForJob ⟨1, "Running", false⟩ (waitResultOfExit 7)).status
      = "Exited (" ++ toString (7 : Int) ++ ")" ∧
    (waitForJob ⟨1, "Running", false⟩ (some .otherError)).status = "Errored" ∧
    (waitForJob ⟨1, "Running", false⟩ (waitResultOfExit 0)).status = "Done" :=
  job_status_lifecycle JobTable.init ⟨1, "Running", false⟩ 7 rfl (by decide)

/-- C9: starting from the initial table, no sequence of operations ever
stores status `"Stopped"` (the waiters write only Done/Exited/Errored and
the signal handler never touches the table), so `bg` on any registered job
id fails with the "bg: job is not stopped" error and leaves the job's
status and the table unchanged. -/
theorem bg_always_fails_not_stopped (ops : List JobOp) (id : Nat) (j : Job)
    (hl : (runOps JobTable.init ops).1.jobs.lookup id = some j) :
    j.status ≠ "Stopped" ∧
    applyOp (runOps JobTable.init ops).1 (.bg id)
      = ((runOps JobTable.init ops).1, some "bg: job is not stopped") := by
  have hns : NoStopped (runOps JobTable.init ops).1 :=
    runOps_noStopped ops JobTable.init
      (by intro kv hkv; simp [JobTable.init] at hkv)
  have hstat : j.status ≠ "Stopped" := hns (id, j) (mem_of_lookup_eq_some hl)
  refine ⟨hstat, ?_⟩
  simp [applyOp, hl, hstat]

/-- Witness for `bg_always_fails_not_stopped`: after one `register`,
`bg 1` fails with the not-stopped error. -/
theorem bg_always_fails_not_stopped_witness :
    (Job.mk 1 "Running" false).status ≠ "Stopped" ∧
    applyOp (runOps JobTable.init [JobOp.register]).1 (.bg 1)
      = ((runOps JobTable.init [JobOp.register]).1,
         some "bg: job is not stopped") :=
  bg_always_fails_not_stopped [JobOp.register] 1 ⟨1, "Running", false⟩ (by decide)


theorem assignedIds_append (l1 l2 : List TableEvent) :
    assignedIds (l1 ++ l2) = assignedIds l1 ++ assignedIds l2 := by
  simp [assignedIds, List.filterMap_append]

/-- The ids assigned in a run from table `t` are exactly the consecutive
ids `t.nextJobID, t.nextJobID + 1, ...`, one per `register`. -/
theorem runOps_assignedIds (ops : List JobOp) :
    ∀ t, assignedIds (runOps t ops).2
      = List.range' t.nextJobID (countRegister ops) := by
  induction ops with
  | nil => intro t; simp [runOps, assignedIds, countRegister]
  | cons op rest ih =>
    intro t
    simp only [runOps, assignedIds_append]
    have hnext := applyOp_nextJobID t op
    cases op with
    | register =>
      rw [if_pos rfl] at hnext
      rw [ih ((applyOp t .register).1), hnext, countRegister]
      simp [opEvents, assignedIds, List.range'_succ]
    | waiterUpdate id res =>
      rw [if_neg (fun hcon => JobOp.noConfusion hcon)] at hnext
      rw [ih _, hnext]
      simp [opEvents, assignedIds, countRegister]
    | fg id =>
      rw [if_neg (fun hcon => JobOp.noConfusion hcon)] at hnext
      rw [ih _, hnext]
      cases hlk : (t.jobs.lookup id).isSome <;>
        simp [opEvents, assignedIds, hlk, countRegister]
    | bg id =>
      rw [if_neg (fun hcon => JobOp.noConfusion hcon)] at hnext
      rw [ih _, hnext]
      simp [opEvents, assignedIds, countRegister]

/-- Every id assigned during a run from `t` is at least `t.nextJobID`. -/
theorem runOps_assigned_ge (ops : List JobOp) :
    ∀ t id, TableEvent.assigned id ∈ (runOps t ops).2 → t.nextJobID ≤ id := by
  induction ops with
  | nil => intro t id h; simp [runOps] at h
  | cons op rest ih =>
    intro t id h
    simp only [runOps, List.mem_append] at h
    have hge := applyOp_nextJobID_ge t op
    rcases h with h | h
    · cases op with
      | register =>
        simp [opEvents] at h
        omega
      | waiterUpdate i res => simp [opEvents] at h
      | fg i =>
        simp only [opEvents] at h
        split at h <;> simp at h
      | bg i => simp [opEvents] at h
    · have := ih _ _ h
      omega

/-- An id reclaimed by `fg` is strictly below every id assigned later in
the run. -/
theorem runOps_reclaimed_lt_assigned (ops : List JobOp) :
    ∀ t, IdsBounded t → ∀ id id',
      List.Sublist [TableEvent.reclaimed id, TableEvent.assigned id']
          (runOps t ops).2 → id < id' := by
  induction ops with
  | nil =>
    intro t _ id id' h
    rw [runOps] at h
    exact absurd (List.sublist_nil.mp h) (by simp)
  | cons op rest ih =>
    intro t hb id id' h
    simp only [runOps] at h
    cases op with
    | register =>
      simp only [opEvents, List.singleton_append] at h
      cases h with
      | cons _ h' => exact ih _ (applyOp_bounded hb .register) id id' h'
    | waiterUpdate i res =>
      simp only [opEvents, List.nil_append] at h
      exact ih _ (applyOp_bounded hb _) id id' h
    | bg i =>
      simp only [opEvents, List.nil_append] at h
      exact ih _ (applyOp_bounded hb _) id id' h
    | fg i =>
      simp only [opEvents] at h
      by_cases hlk : (t.jobs.lookup i).isSome
      · rw [if_pos hlk, List.singleton_append] at h
        cases h with
        | cons _ h' => exact ih _ (applyOp_bounded hb _) id id' h'
        | cons₂ _ h' =>
          obtain ⟨j, hj⟩ := Option.isSome_iff_exists.mp hlk
          have hidlt : id < t.nextJobID := hb (id, j) (mem_of_lookup_eq_some hj)
          have hmem : TableEvent.assigned id'
              ∈ (runOps (applyOp t (.fg id)).1 rest).2 :=
            h'.subset (List.mem_singleton_self _)
          have hge := runOps_assigned_ge rest _ _ hmem
          have hnext := applyOp_nextJobID t (.fg id)
          rw [if_neg (fun hcon => JobOp.noConfusion hcon)] at hnext
          omega
      · rw [if_neg hlk, List.nil_append] at h
        exact ih _ (applyOp_bounded hb _) id id' h

/-- C5: job ids are assigned starting at 1 and strictly increase across a
session: the ids returned by successive `register` operations are the
consecutive naturals from 1, hence pairwise strictly increasing, and an id
reclaimed by `fg` is strictly smaller than (so never equal to) every id
assigned afterwards — reclaimed ids are never reused. -/
theorem register_ids_monotonic (ops : List JobOp) :
    assignedIds (runOps JobTable.init ops).2
      = List.range' 1 (countRegister ops) ∧
    List.Pairwise (· < ·) (assignedIds (runOps JobTable.init ops).2) ∧
    (∀ id id', List.Sublist [TableEvent.reclaimed id, TableEvent.assigned id']
        (runOps JobTable.init ops).2 → id < id') := by
  have hchar := runOps_assignedIds ops JobTable.init
  refine ⟨hchar, ?_, ?_⟩
  · rw [hchar]
    exact List.pairwise_lt_range' 1 (countRegister ops)
  · intro id id' h
    exact runOps_reclaimed_lt_assigned ops JobTable.init
      (by intro kv hkv; simp [JobTable.init] at hkv) id id' h

/-- Witness for `register_ids_monotonic`: three registers with a reclaim of
id 1 in between assign ids 1, 2, 3 and reassign nothing. -/
theorem register_ids_monotonic_witness :
    assignedIds (runOps JobTable.init
        [JobOp.register, .register, .fg 1, .register]).2 = [1, 2, 3] ∧
    List.Pairwise (· < ·) ([1, 2, 3] : List Nat) ∧ (1 : Nat) < 3 := by
  have h := register_ids_monotonic [JobOp.register, .register, .fg 1, .register]
  refine ⟨?_, ?_, ?_⟩
  · rw [h.1]; decide
  · have hp := h.2.1
    rw [h.1] at hp
    exact hp
  · exact h.2.2 1 3 (by decide)

end ShellModel
